import Mathlib

/-!
Shallow embedding of `tools/find_step.py`.

Strings are modelled as `List Char`.  Python's regex substitutions are
modelled as direct left-to-right scanners that reproduce the match
semantics of the concrete patterns appearing in the source (leftmost
match, greediness, word boundaries, the backtracking behaviour those
fixed patterns can exhibit).  The character classes `\s` and `\w` are
modelled over the ASCII range, matching the source's own use on ASCII
step files.  Scanners that consume a variable number of characters per
step take a fuel argument; every wrapper passes the length of the input,
which each step strictly decreases, so the zero-fuel fallback is
unreachable.  File-system traversal is factored out: the index and the
feature files are explicit parameters of the functions that the Python
code feeds from `Path.cwd()`.
-/

namespace FindStep

/-- The whitespace characters of `\s` / `str.strip()` (ASCII range). -/
def isPySpace (c : Char) : Bool :=
  c == ' ' || c == '\t' || c == '\n' || c == '\r' || c == '\x0b' || c == '\x0c'

/-- The word characters of `\w` (ASCII range), used by `\b` boundaries. -/
def isWordCh (c : Char) : Bool := c.isAlpha || c.isDigit || c == '_'

/-- The double-quote character. -/
def dquote : Char := Char.ofNat 34

/-- The single-quote character. -/
def squote : Char := Char.ofNat 39

/-- Trailing half of Python `str.strip()`. -/
def dropTrailing (s : List Char) : List Char :=
  ((s.reverse).dropWhile isPySpace).reverse

/-- Python `str.strip()`. -/
def pyStrip (s : List Char) : List Char :=
  dropTrailing (s.dropWhile isPySpace)

/-- The alternation of `re.sub(r'^(Feature|Scenario|Given|When|Then|And)\s+', ...)`
in `normalize_gherkin` (find_step.py line 53), stored lowercase since the
regex is compiled with `re.I`.  Note that `But` is absent in the source. -/
def gherkinKeywords : List (List Char) :=
  ["feature".data, "scenario".data, "given".data, "when".data, "then".data, "and".data]

/-- The alternation `given|when|then|step|and` shared by `STEP_DECORATOR_RE`
(line 23) and the `build_index` line regex (line 109), both `re.I`. -/
def decoratorKeywords : List (List Char) :=
  ["given".data, "when".data, "then".data, "step".data, "and".data]

/-- The alternation of `re.search(r'\b(Given|When|Then|And|But)\b', line)` in
`list_undefined` (line 150); that regex has no `re.I` flag. -/
def featureKeywords : List (List Char) :=
  ["Given".data, "When".data, "Then".data, "And".data, "But".data]

/-- Case-insensitive match of the literal keyword `kw` (given lowercase)
against a prefix of `s`; returns the remainder on success. -/
def eatKwCI : List Char → List Char → Option (List Char)
  | [], s => some s
  | _ :: _, [] => none
  | k :: ks, c :: cs => if c.toLower = k then eatKwCI ks cs else none

/-- One alternative of `^(Kw|...)\s+`: the keyword, case-insensitively,
followed by at least one whitespace character; the greedy `\s+` is consumed. -/
def tryKwWs (kw s : List Char) : Option (List Char) :=
  match eatKwCI kw s with
  | some (c :: cs) => if isPySpace c then some (cs.dropWhile isPySpace) else none
  | _ => none

/-- `re.sub(r'^(...)\s+', '', s)`: the anchor `^` (no `re.M`) fires at most
once; the first alternative that matches (with its `\s+`) is removed. -/
def stripLeadKw : List (List Char) → List Char → List Char
  | [], s => s
  | kw :: kws, s =>
    match tryKwWs kw s with
    | some r => r
    | none => stripLeadKw kws s

/-- `re.sub(r'q[^q]*q', 'q{}q', s)` for a quote character `q`: each
leftmost non-overlapping quoted span is replaced by the placeholder kept
inside its quotes; an unclosed quote matches nothing. -/
def replQuotedGo (q : Char) : Nat → List Char → List Char
  | _, [] => []
  | 0, s => s
  | fuel + 1, c :: cs =>
    if c = q then
      match cs.dropWhile (fun x => x != q) with
      | _ :: rest => q :: '{' :: '}' :: q :: replQuotedGo q fuel rest
      | [] => c :: cs
    else c :: replQuotedGo q fuel cs

def replQuoted (q : Char) (s : List Char) : List Char := replQuotedGo q s.length s

/-- `re.sub(r'\b\d+(\.\d+)?\b', '{}', s)` (find_step.py line 57).  The scan
keeps track of whether the previous character was a word character (the
`\b` before the digits); `\d+` is effectively maximal, the optional
`(\.\d+)?` group is dropped again when the closing `\b` after it fails,
and a digit run whose closing boundary fails is emitted verbatim. -/
def replNumGo : Nat → Bool → List Char → List Char
  | _, _, [] => []
  | 0, _, s => s
  | fuel + 1, prevWord, c :: cs =>
    if prevWord || !c.isDigit then c :: replNumGo fuel (isWordCh c) cs
    else
      match cs.dropWhile Char.isDigit with
      | '.' :: r2 =>
        if (r2.headD ' ').isDigit then
          match r2.dropWhile Char.isDigit with
          | [] => ['{', '}']
          | x :: r3 =>
            if isWordCh x then '{' :: '}' :: replNumGo fuel true ('.' :: r2)
            else '{' :: '}' :: replNumGo fuel true (x :: r3)
        else '{' :: '}' :: replNumGo fuel true ('.' :: r2)
      | x :: r1 =>
        if isWordCh x then c :: cs.takeWhile Char.isDigit ++ replNumGo fuel true (x :: r1)
        else '{' :: '}' :: replNumGo fuel true (x :: r1)
      | [] => ['{', '}']

def replNum (s : List Char) : List Char := replNumGo s.length false s

/-- `re.sub(r'\s+', ' ', s)`: every maximal whitespace run becomes one space. -/
def collapseGo : Nat → List Char → List Char
  | _, [] => []
  | 0, s => s
  | fuel + 1, c :: cs =>
    if isPySpace c then ' ' :: collapseGo fuel (cs.dropWhile isPySpace)
    else c :: collapseGo fuel cs

def collapseWs (s : List Char) : List Char := collapseGo s.length s

/-- The stages of `normalize_gherkin` after the keyword removal
(find_step.py lines 54-69). -/
def gherkinTail (s : List Char) : List Char :=
  pyStrip (collapseWs (replNum (replQuoted squote (replQuoted dquote s))))

/-- `normalize_gherkin` (find_step.py lines 43-70). -/
def normalize_gherkin (s : List Char) : List Char :=
  gherkinTail (stripLeadKw gherkinKeywords (pyStrip s))

/-- `re.sub(r'^[ruRU]\s*', '', pat)` (line 81): one leading raw/unicode
string marker, together with any following whitespace, is removed. -/
def stripRawMark (p : List Char) : List Char :=
  match p with
  | c :: cs =>
    if c == 'r' || c == 'u' || c == 'R' || c == 'U' then cs.dropWhile isPySpace else p
  | [] => []

/-- Lines 83-84: if the text both starts and ends with the same quote
character, drop the outer pair (`pat[1:-1]`; a lone quote becomes empty). -/
def unquoteOuter (p : List Char) : List Char :=
  match p with
  | [] => []
  | c :: cs =>
    let lastc := (c :: cs).getLastD c
    if (c == dquote && lastc == dquote) || (c == squote && lastc == squote) then cs.dropLast
    else c :: cs

/-- `re.sub(r'\{[^}]+\}', '{}', pat)` (line 86): a brace-wrapped span with
a non-empty body free of closing braces becomes the bare placeholder. -/
def replBracesGo : Nat → List Char → List Char
  | _, [] => []
  | 0, s => s
  | fuel + 1, c :: cs =>
    if c = '{' then
      match cs.dropWhile (fun x => x != '}') with
      | _ :: rest =>
        if (cs.takeWhile (fun x => x != '}')).isEmpty then '{' :: replBracesGo fuel cs
        else '{' :: '}' :: replBracesGo fuel rest
      | [] => c :: cs
    else c :: replBracesGo fuel cs

def replBraces (s : List Char) : List Char := replBracesGo s.length s

/-- `re.sub(r'\(\\?d\+\)', '{}', pat)` (line 89): the literal texts
`(\d+)` and `(d+)` become the placeholder. -/
def replDGroup : List Char → List Char
  | '(' :: '\\' :: 'd' :: '+' :: ')' :: rest => '{' :: '}' :: replDGroup rest
  | '(' :: 'd' :: '+' :: ')' :: rest => '{' :: '}' :: replDGroup rest
  | c :: cs => c :: replDGroup cs
  | [] => []

/-- `re.sub(r'\(\\?d\+\.\d\+\)', '{}', pat)` (line 90).  After the literal
dot the pattern says `\d`, the digit class, so the text it accepts is
`(\d+.c+)` or `(d+.c+)` for a single digit character `c` - it does NOT
accept the literal text `(\d+\.\d+)` that the source comment announces. -/
def replDDGroup : List Char → List Char
  | '(' :: '\\' :: 'd' :: '+' :: '.' :: c :: '+' :: ')' :: rest =>
    if c.isDigit then '{' :: '}' :: replDDGroup rest
    else '(' :: replDDGroup ('\\' :: 'd' :: '+' :: '.' :: c :: '+' :: ')' :: rest)
  | '(' :: 'd' :: '+' :: '.' :: c :: '+' :: ')' :: rest =>
    if c.isDigit then '{' :: '}' :: replDDGroup rest
    else '(' :: replDDGroup ('d' :: '+' :: '.' :: c :: '+' :: ')' :: rest)
  | c :: cs => c :: replDDGroup cs
  | [] => []

/-- The stages of `normalize_pattern` after prefix and outer-quote
removal (find_step.py lines 85-96). -/
def patternTail (p : List Char) : List Char :=
  pyStrip (collapseWs (replQuoted squote (replQuoted dquote
    (replDDGroup (replDGroup (replBraces p))))))

/-- `normalize_pattern` (find_step.py lines 72-96). -/
def normalize_pattern (p : List Char) : List Char :=
  patternTail (unquoteOuter (stripRawMark (pyStrip p)))

/-- The dictionary appended by `build_index` per matching decorator line. -/
structure StepDefinitionEntry where
  file : List Char
  line : Nat
  raw : List Char
  normalized : List Char
  keyword : List Char
deriving DecidableEq

/-- `find_match` (find_step.py lines 128-135), with the index - which the
source rebuilds from the file system - passed explicitly: the first entry
in index order whose normalized pattern equals the normalized line. -/
def find_match (idx : List StepDefinitionEntry) (gherkin_line : List Char) :
    Option StepDefinitionEntry :=
  let targ := normalize_gherkin gherkin_line
  idx.find? (fun e => decide (e.normalized = targ))

/-- First alternative of `@(given|when|then|step|and)` matching
case-insensitively at the head of `s` (the alternatives start with five
distinct letters, so at most one can match). -/
def matchKwAlt : List (List Char) → List Char → Option (List Char × List Char)
  | [], _ => none
  | kw :: kws, s =>
    match eatKwCI kw s with
    | some r => some (kw, r)
    | none => matchKwAlt kws s

/-- The shared head `^\s*@(given|when|then|step|and)` of both decorator
regexes, applied to one line. -/
def decoHead (line : List Char) : Option (List Char × List Char) :=
  match line.dropWhile isPySpace with
  | c :: rest => if c == '@' then matchKwAlt decoratorKeywords rest else none
  | [] => none

/-- `STEP_DECORATOR_RE` = `^\s*@(given|when|then|step|and)\s*\(`
(find_step.py lines 22-25) tested on one line: after the keyword,
optional whitespace and then an opening parenthesis. -/
def stepDecoratorMatch (line : List Char) : Bool :=
  match decoHead line with
  | some (_, r) =>
    match r.dropWhile isPySpace with
    | c :: _ => c == '('
    | [] => false
  | none => false

/-- Split `l` at its last closing parenthesis: `some (before, after)` with
`l = before ++ ')' :: after` and no `')'` in `after`. -/
def lastParenSplit (l : List Char) : Option (List Char × List Char) :=
  match l.reverse.dropWhile (fun x => x != ')') with
  | _ :: preR => some (preR.reverse, (l.reverse.takeWhile (fun x => x != ')')).reverse)
  | [] => none

/-- The `build_index` line regex `^\s*@(given|when|then|step|and)\((?P<pat>.+)\)`
(find_step.py lines 108-112) on one line: the parenthesis must follow the
keyword immediately, the greedy `.+` runs to the last `')'` of the line
and must be non-empty.  Returns the lowercased keyword and
`m.group("pat").strip()`. -/
def buildIndexLineMatch (line : List Char) : Option (List Char × List Char) :=
  match decoHead line with
  | some (kw, r) =>
    match r with
    | c :: r2 =>
      if c == '(' then
        match lastParenSplit r2 with
        | some (content, _) => if content.isEmpty then none else some (kw, pyStrip content)
        | none => none
      else none
    | [] => none
  | none => none

/-- The dictionary appended by `list_undefined` per undefined step line. -/
structure UndefinedStepEntry where
  feature_file : List Char
  line : Nat
  text : List Char
  normalized : List Char
deriving DecidableEq

/-- Literal (case-sensitive) keyword match at the head of `s`. -/
def startsWithLit : List Char → List Char → Bool
  | [], _ => true
  | _ :: _, [] => false
  | k :: ks, c :: cs => c == k && startsWithLit ks cs

/-- Whole-word occurrence of `kw` at the head of `s`: the literal keyword
followed by a non-word character or the end of the line. -/
def matchWordHere (kw s : List Char) : Bool :=
  startsWithLit kw s && !isWordCh ((s.drop kw.length).headD ' ')

/-- Scanner behind `re.search(r'\b(Given|When|Then|And|But)\b', line)`:
`prev` records whether the previous character was a word character, so the
leading `\b` holds exactly when `prev` is false. -/
def wbSearchGo : Bool → List Char → Bool
  | _, [] => false
  | prev, c :: cs =>
    (!prev && featureKeywords.any (fun kw => matchWordHere kw (c :: cs)))
      || wbSearchGo (isWordCh c) cs

/-- `re.search(r'\b(Given|When|Then|And|But)\b', line)` (find_step.py
line 150); the regex has no `re.I`, so the match is case-sensitive. -/
def hasStepKw (line : List Char) : Bool := wbSearchGo false line

/-- Case-insensitive whole-word keyword match, used only to STATE that a
line contains one of the five step keywords in some letter casing (the
source itself has no such search). -/
def matchWordHereCI (kw s : List Char) : Bool :=
  (eatKwCI kw s).isSome && !isWordCh ((s.drop kw.length).headD ' ')

/-- Lowercased spellings of the five step keywords, for `hasStepKwCI`. -/
def featureKeywordsCI : List (List Char) :=
  ["given".data, "when".data, "then".data, "and".data, "but".data]

def wbSearchCIGo : Bool → List Char → Bool
  | _, [] => false
  | prev, c :: cs =>
    (!prev && featureKeywordsCI.any (fun kw => matchWordHereCI kw (c :: cs)))
      || wbSearchCIGo (isWordCh c) cs

/-- Whether the line contains one of Given/When/Then/And/But as a whole
word in SOME letter casing (statement-side notion for claim C10). -/
def hasStepKwCI (line : List Char) : Bool := wbSearchCIGo false line

/-- `enumerate(..., start=n)`. -/
def enumFrom (n : Nat) : List (List Char) → List (Nat × List Char)
  | [] => []
  | l :: ls => (n, l) :: enumFrom (n + 1) ls

/-- `list_undefined` (find_step.py lines 137-159), with the feature files
(name and list of lines) and the step-definition index - which the source
reads from the file system - passed explicitly.  A line is scanned only
when the case-sensitive keyword search succeeds; its normalization is
kept when it is non-empty and absent from the index's normalized set. -/
def list_undefined (features : List (List Char × List (List Char)))
    (idx : List StepDefinitionEntry) : List UndefinedStepEntry :=
  features.flatMap (fun fp =>
    (enumFrom 1 fp.2).filterMap (fun il =>
      if hasStepKw il.2 then
        let norm := normalize_gherkin il.2
        if !norm.isEmpty && !(idx.any (fun e => decide (e.normalized = norm))) then
          some ⟨fp.1, il.1, pyStrip il.2, norm⟩
        else none
      else none))

/-- Whitespace-canonical strings (verification-side): every whitespace
character is a plain space that is not followed by another whitespace
character.  This is the shape of `collapseWs` output. -/
def canonWs : List Char → Bool
  | [] => true
  | c :: cs => (!isPySpace c || (c == ' ' && !isPySpace (cs.headD 'x'))) && canonWs cs

end FindStep

open FindStep

/-- Claim C1: the spec's round-trip test case fails on the code.  The
decorator line `@when("a {n} second delay")` indexes with normalized
pattern `a {} second delay` (the `{n}` slot loses its quotes were never
there), while the Gherkin line `When a "5" second delay` normalizes to
`a "{}" second delay` (the quotes around the value are kept), so
`find_match` over an index holding exactly that entry returns no match
instead of the entry. -/
theorem round_trip_divergence_eval :
    buildIndexLineMatch ("@when(\"a \x7bn\x7d second delay\")".data)
      = some ("when".data, "\"a \x7bn\x7d second delay\"".data)
    ∧ normalize_pattern ("\"a \x7bn\x7d second delay\"".data) = "a \x7b\x7d second delay".data
    ∧ normalize_gherkin ("When a \"5\" second delay".data) = "a \"\x7b\x7d\" second delay".data
    ∧ find_match
        [⟨"steps.py".data, 1, "\"a \x7bn\x7d second delay\"".data,
          normalize_pattern ("\"a \x7bn\x7d second delay\"".data), "when".data⟩]
        ("When a \"5\" second delay".data) = none := by
  refine ⟨by decide, by decide, by decide, by decide⟩

/-- Claim C5: `normalize_pattern` does NOT replace the decimal capture
idiom.  Its second group regex `\(\\?d\+\.\d\+\)` puts the digit CLASS
`\d` after the literal dot, so neither `(\d+\.\d+)` nor `(d+.d+)` can
match it and both survive verbatim, while the integer idiom `(\d+)` is
replaced - contradicting the source's own comment `# (\d+\.\d+)`. -/
theorem decimal_group_not_replaced_eval :
    normalize_pattern ("\"a (\\d+\\.\\d+) delay\"".data) = "a (\\d+\\.\\d+) delay".data
    ∧ normalize_pattern ("\"a (d+.d+) delay\"".data) = "a (d+.d+) delay".data
    ∧ normalize_pattern ("\"a (\\d+) delay\"".data) = "a \x7b\x7d delay".data := by
  refine ⟨by decide, by decide, by decide⟩

/-- Claim C7: `normalize_gherkin` on the empty string returns the empty
string.  (In this embedding the function is total by construction - every
regex substitution is a terminating scan - so it returns a string for
every input and raises nothing.) -/
theorem normalize_gherkin_empty : normalize_gherkin ([] : List Char) = [] := by decide

/-- Claim C2 (counterexample): the line `But a step` begins with the
keyword `But` followed by whitespace, yet `normalize_gherkin` returns it
unchanged - `But` is absent from the source's keyword alternation
`Feature|Scenario|Given|When|Then|And`, so the keyword still appears at
the start of the normalized output. -/
theorem but_keyword_not_stripped :
    normalize_gherkin ("But a step".data) = "But a step".data := by decide

/-- Claim C3 (counterexample): the line `@given (x)` is matched by
`STEP_DECORATOR_RE` (which allows `\s*` between the keyword and the
parenthesis) but not by the `build_index` line regex (which requires the
parenthesis immediately), so the two passes do not accept the same lines. -/
theorem qualification_without_extraction :
    stepDecoratorMatch ("@given (x)".data) = true
    ∧ buildIndexLineMatch ("@given (x)".data) = none := by
  refine ⟨by decide, by decide⟩

/-- Claim C4 (counterexample): neither normalizer is idempotent.  A second
application of `normalize_gherkin` strips a further leading keyword
(`Given Given x` normalizes to `Given x`, and again to `x`), and a second
application of `normalize_pattern` strips a further leading raw-string
marker letter (`run` normalizes to `un`, and again to `n`). -/
theorem normalize_not_idempotent :
    normalize_gherkin (normalize_gherkin ("Given Given x".data))
        ≠ normalize_gherkin ("Given Given x".data)
    ∧ normalize_pattern (normalize_pattern ("run".data)) ≠ normalize_pattern ("run".data) := by
  refine ⟨by decide, by decide⟩

/-- Unfolding equation for `find_match`. -/
theorem find_match_eq (idx : List StepDefinitionEntry) (line : List Char) :
    find_match idx line
      = idx.find? (fun e => decide (e.normalized = normalize_gherkin line)) := rfl

/-- Claim C6: `find_match` scans the index in order and returns the first
entry whose normalized pattern equals the normalized line; later entries,
tied or not, are ignored, and as a pure function of the index the choice
is the same on every run. -/
theorem find_match_first_in_index_order
    (pre suf : List StepDefinitionEntry) (e : StepDefinitionEntry) (line : List Char)
    (he : e.normalized = normalize_gherkin line)
    (hpre : ∀ x ∈ pre, x.normalized ≠ normalize_gherkin line) :
    find_match (pre ++ e :: suf) line = some e := by
  induction pre with
  | nil =>
    rw [List.nil_append, find_match_eq]
    exact List.find?_cons_of_pos _ (decide_eq_true he)
  | cons p ps ih =>
    have hrec := ih (fun x hx => hpre x (List.mem_cons_of_mem p hx))
    rw [find_match_eq] at hrec ⊢
    rw [List.cons_append, List.find?_cons_of_neg _
      (by simp [decide_eq_false (hpre p (List.mem_cons_self p ps))])]
    exact hrec

/-- Witness for C6: two entries tie on the normalized pattern `a step`;
lookup returns the first one (file `a.py`), not the second. -/
theorem find_match_first_in_index_order_witness :
    find_match
      [⟨"a.py".data, 1, "\"a step\"".data, "a step".data, "given".data⟩,
       ⟨"b.py".data, 2, "\"a step\"".data, "a step".data, "when".data⟩]
      ("When a step".data)
      = some ⟨"a.py".data, 1, "\"a step\"".data, "a step".data, "given".data⟩ :=
  find_match_first_in_index_order []
    [⟨"b.py".data, 2, "\"a step\"".data, "a step".data, "when".data⟩]
    ⟨"a.py".data, 1, "\"a step\"".data, "a step".data, "given".data⟩
    ("When a step".data) (by decide) (by decide)

/-- `find?` commutes with mapping a function that preserves the predicate. -/
theorem find?_map_inv {α : Type} (g : α → α) (p : α → Bool) (l : List α)
    (hp : ∀ a, p (g a) = p a) :
    (l.map g).find? p = (l.find? p).map g := by
  induction l with
  | nil => rfl
  | cons a l ih =>
    rw [List.map_cons]
    cases h : p a with
    | true =>
      rw [List.find?_cons_of_pos _ (by rw [hp a, h]), List.find?_cons_of_pos _ h]
      rfl
    | false =>
      rw [List.find?_cons_of_neg _ (by simp [hp a, h]), List.find?_cons_of_neg _ (by simp [h])]
      exact ih

/-- Claim C8: `find_match` compares only the normalized field, never the
keyword: rewriting the keyword of every index entry in an arbitrary way
changes the result only by the same rewriting - the same position is
matched, even when the line's own keyword differs from the entry's. -/
theorem find_match_ignores_keyword (idx : List StepDefinitionEntry) (line : List Char)
    (f : StepDefinitionEntry → List Char) :
    find_match (idx.map (fun e => ⟨e.file, e.line, e.raw, e.normalized, f e⟩)) line
      = (find_match idx line).map
          (fun e => (⟨e.file, e.line, e.raw, e.normalized, f e⟩ : StepDefinitionEntry)) := by
  rw [find_match_eq, find_match_eq]
  exact find?_map_inv _ _ idx (fun a => rfl)

/-- Claim C9: every entry emitted by `list_undefined` has a non-empty
normalized field - the guard `if norm and ...` silently drops any line
whose normalization is the empty string. -/
theorem list_undefined_normalized_nonempty
    (features : List (List Char × List (List Char))) (idx : List StepDefinitionEntry)
    (e : UndefinedStepEntry) (he : e ∈ list_undefined features idx) :
    e.normalized ≠ [] := by
  simp only [list_undefined, List.mem_flatMap] at he
  obtain ⟨fp, -, he⟩ := he
  simp only [List.mem_filterMap] at he
  obtain ⟨il, -, hil⟩ := he
  split at hil
  · split at hil
    · cases hil
      next hguard =>
        have h1 : (normalize_gherkin il.2).isEmpty = false := by
          rcases Bool.and_eq_true .. |>.mp hguard with ⟨hl, -⟩
          simpa using hl
        simpa using List.isEmpty_eq_false.mp h1
    · exact absurd hil (by simp)
  · exact absurd hil (by simp)

/-- Witness for C9: a feature line with no matching definition produces
an entry whose normalized text `a thing` is non-empty. -/
theorem list_undefined_normalized_nonempty_witness :
    (⟨"f.feature".data, 1, "Given a thing".data, "a thing".data⟩
        : UndefinedStepEntry).normalized ≠ [] :=
  list_undefined_normalized_nonempty
    [("f.feature".data, ["Given a thing".data])] []
    ⟨"f.feature".data, 1, "Given a thing".data, "a thing".data⟩ (by decide)

/-- Position of a member of `enumFrom`: the numbering starts at `n` and
follows list positions. -/
theorem enumFrom_mem (n j : Nat) (v : List Char) (ls : List (List Char))
    (h : (j, v) ∈ enumFrom n ls) :
    ∃ k, ∃ hk : k < ls.length, j = n + k ∧ ls.get ⟨k, hk⟩ = v := by
  induction ls generalizing n with
  | nil => simp [enumFrom] at h
  | cons l ls ih =>
    simp only [enumFrom, List.mem_cons] at h
    rcases h with h | h
    · obtain ⟨h1, h2⟩ := Prod.ext_iff.mp h
      exact ⟨0, by simp, by simpa using h1, by simpa using h2.symm⟩
    · obtain ⟨k, hk, hkj, hkv⟩ := ih (n + 1) h
      exact ⟨k + 1, by simpa using hk, by omega, by simpa using hkv⟩

/-- Claim C10: the keyword search of `list_undefined` is case-sensitive.
A feature line that contains one of Given/When/Then/And/But as a whole
word in some letter casing, but not in the exact casing of the regex, is
never reported: no emitted entry carries that line's number. -/
theorem lowercase_keyword_line_never_reported
    (idx : List StepDefinitionEntry) (name : List Char) (lines : List (List Char))
    (i : Nat) (hi : i < lines.length)
    (hci : hasStepKwCI (lines.get ⟨i, hi⟩) = true)
    (hcs : hasStepKw (lines.get ⟨i, hi⟩) = false) :
    (list_undefined [(name, lines)] idx).all (fun e => e.line != i + 1) = true := by
  rw [List.all_eq_true]
  intro e he
  simp only [list_undefined, List.mem_flatMap, List.mem_singleton] at he
  obtain ⟨fp, rfl, he⟩ := he
  simp only [List.mem_filterMap] at he
  obtain ⟨il, hmem, hil⟩ := he
  split at hil
  · next hkwline =>
    split at hil
    · cases hil
      obtain ⟨k, hk, hkj, hkv⟩ := enumFrom_mem 1 il.1 il.2 lines (by
        simpa using hmem)
      simp only [bne_iff_ne, ne_eq]
      intro hline
      have hki : k = i := by omega
      subst hki
      rw [show (⟨k, hk⟩ : Fin lines.length) = ⟨k, hi⟩ from rfl] at hkv
      rw [hkv] at hcs
      exact absurd hkwline (by simp [hcs])
    · exact absurd hil (by simp)
  · exact absurd hil (by simp)

/-- Witness for C10: the line `given a step` contains `given` only in
lowercase; even with an empty index it is not reported as undefined. -/
theorem lowercase_keyword_line_never_reported_witness :
    (list_undefined [("f.feature".data, ["given a step".data])] []).all
      (fun e => e.line != 0 + 1) = true :=
  lowercase_keyword_line_never_reported [] "f.feature".data ["given a step".data] 0
    (by decide) (by decide) (by decide)

/-- Claim C3 (amended): the inclusion that does hold.  Every line accepted
by the `build_index` extraction regex is accepted by `STEP_DECORATOR_RE`:
both start with `^\s*@` and the same keyword alternation, and where the
extraction regex demands an immediate `(`, the qualification regex's
`\s*\(` is satisfied with zero whitespace.  (The converse fails, see the
counterexample.) -/
theorem extraction_implies_qualification
    (line kw raw : List Char) (h : buildIndexLineMatch line = some (kw, raw)) :
    stepDecoratorMatch line = true := by
  unfold buildIndexLineMatch at h
  unfold stepDecoratorMatch
  cases hd : decoHead line with
  | none => rw [hd] at h; simp at h
  | some p =>
    obtain ⟨kw0, r⟩ := p
    cases r with
    | nil => rw [hd] at h; simp at h
    | cons c r2 =>
      by_cases hc : c = '('
      · subst hc
        have hp : isPySpace '(' = false := by decide
        simp [List.dropWhile_cons, hp]
      · rw [hd] at h
        simp [hc] at h

/-- Witness for C3 (amended): the line `@given("x")` is accepted by the
extraction regex, hence by the qualification regex. -/
theorem extraction_implies_qualification_witness :
    stepDecoratorMatch ("@given(\"x\")".data) = true :=
  extraction_implies_qualification ("@given(\"x\")".data) ("given".data)
    ("\"x\"".data) (by decide)

/-- Python whitespace characters are unchanged by `Char.toLower`. -/
theorem toLower_of_space (c : Char) (h : isPySpace c = true) : c.toLower = c := by
  simp only [isPySpace, Bool.or_eq_true, beq_iff_eq] at h
  rcases h with ((((h | h) | h) | h) | h) | h <;> subst h <;> decide

/-- `headD` of the reverse is `getLastD`. -/
theorem headD_reverse (l : List Char) (d : Char) : l.reverse.headD d = l.getLastD d := by
  rw [List.getLastD_eq_getLast?, ← List.head?_reverse]
  cases l.reverse <;> simp

/-- `dropWhile` is the identity when the head fails the predicate. -/
theorem dropWhile_id_of_head (l : List Char) (h : isPySpace (l.headD 'x') = false) :
    l.dropWhile isPySpace = l := by
  cases l with
  | nil => rfl
  | cons c cs =>
    rw [List.headD_cons] at h
    rw [List.dropWhile_cons, if_neg (by simp [h])]

/-- `dropTrailing` is the identity when the last char fails the predicate. -/
theorem dropTrailing_id_of_last (l : List Char) (h : isPySpace (l.getLastD 'x') = false) :
    dropTrailing l = l := by
  unfold dropTrailing
  rw [dropWhile_id_of_head _ (by rw [headD_reverse]; exact h), List.reverse_reverse]

/-- `pyStrip` is the identity on a string with non-space ends. -/
theorem pyStrip_id_of_ends (l : List Char) (h1 : isPySpace (l.headD 'x') = false)
    (h2 : isPySpace (l.getLastD 'x') = false) : pyStrip l = l := by
  unfold pyStrip
  rw [dropWhile_id_of_head l h1]
  exact dropTrailing_id_of_last l h2

/-- `eatKwCI` consumes exactly a case variant of its keyword. -/
theorem eatKwCI_append (kw kwc t : List Char) (h : kwc.map Char.toLower = kw) :
    eatKwCI kw (kwc ++ t) = some t := by
  induction kwc generalizing kw with
  | nil => subst h; rfl
  | cons c cs ih =>
    subst h
    simp only [List.map_cons, List.cons_append, eatKwCI, if_pos rfl]
    exact ih _ rfl

/-- `dropWhile` eats a whitespace block up to a non-space head. -/
theorem dropWhile_spaces_append (ws rest : List Char)
    (hws : ∀ c ∈ ws, isPySpace c = true)
    (hr : isPySpace (rest.headD 'x') = false) :
    (ws ++ rest).dropWhile isPySpace = rest := by
  induction ws with
  | nil => exact dropWhile_id_of_head rest hr
  | cons w ws2 ih =>
    rw [List.cons_append, List.dropWhile_cons, if_pos (by simp [hws w (by simp)])]
    exact ih (fun c hc => hws c (by simp [hc]))

/-- A keyword alternative fires on keyword plus whitespace plus remainder. -/
theorem tryKwWs_hit (kw kwc ws rest : List Char)
    (hmap : kwc.map Char.toLower = kw)
    (hws : ∀ c ∈ ws, isPySpace c = true) (hw : ws ≠ [])
    (hr : isPySpace (rest.headD 'x') = false) :
    tryKwWs kw (kwc ++ ws ++ rest) = some rest := by
  cases ws with
  | nil => exact absurd rfl hw
  | cons w ws2 =>
    unfold tryKwWs
    rw [List.append_assoc, eatKwCI_append _ _ _ hmap, List.cons_append]
    have hwsp : isPySpace w = true := hws w (by simp)
    simp only [hwsp, if_pos]
    rw [dropWhile_spaces_append ws2 rest (fun c hc => hws c (by simp [hc])) hr]

/-- A keyword alternative fails when its first letter does not match. -/
theorem tryKwWs_miss (k : Char) (ks : List Char) (c : Char) (cs : List Char)
    (h : ¬ c.toLower = k) : tryKwWs (k :: ks) (c :: cs) = none := by
  unfold tryKwWs
  simp only [eatKwCI, if_neg h]

theorem stripLeadKw_cons_miss (kw : List Char) (kws : List (List Char)) (s : List Char)
    (h : tryKwWs kw s = none) : stripLeadKw (kw :: kws) s = stripLeadKw kws s := by
  simp only [stripLeadKw, h]

theorem stripLeadKw_cons_hit (kw : List Char) (kws : List (List Char)) (s r : List Char)
    (h : tryKwWs kw s = some r) : stripLeadKw (kw :: kws) s = r := by
  simp only [stripLeadKw, h]

theorem gherkinKeywords_expand :
    gherkinKeywords = "feature".data :: "scenario".data :: "given".data ::
      "when".data :: "then".data :: "and".data :: [] := rfl

/-- A list mapping onto a cons is a cons whose head lowers to the head. -/
theorem kwc_cons_of_map_eq (kwc : List Char) (k : Char) (ks : List Char)
    (h : kwc.map Char.toLower = k :: ks) :
    ∃ c1 cs1, kwc = c1 :: cs1 ∧ c1.toLower = k := by
  cases kwc with
  | nil => simp at h
  | cons a b =>
    refine ⟨a, b, rfl, ?_⟩
    have h2 := congrArg (fun l => List.headD l 'x') h
    simpa using h2

/-- A case variant of a Gherkin keyword is non-empty and starts with a
non-space character. -/
theorem gherkin_kw_head_nonspace (kwc : List Char)
    (hkw : kwc.map Char.toLower ∈ gherkinKeywords) :
    kwc ≠ [] ∧ isPySpace (kwc.headD 'x') = false := by
  cases kwc with
  | nil => exact absurd hkw (by decide)
  | cons c1 cs1 =>
    refine ⟨by simp, ?_⟩
    rw [List.headD_cons]
    by_contra hsp
    rw [Bool.not_eq_false] at hsp
    have hlow := toLower_of_space c1 hsp
    simp only [gherkinKeywords, List.mem_cons, List.not_mem_nil, or_false] at hkw
    rcases hkw with h | h | h | h | h | h <;>
      (have h2 := congrArg (fun l => List.headD l 'x') h
       simp only [List.map_cons, List.headD_cons] at h2
       rw [hlow] at h2
       rw [h2] at hsp
       revert hsp
       decide)

/-- `getLastD` of an append with non-empty right part. -/
theorem getLastD_append_right (l : List Char) (r1 : Char) (rt : List Char) (d : Char) :
    (l ++ (r1 :: rt)).getLastD d = (r1 :: rt).getLastD d := by
  rw [List.getLastD_eq_getLast?, List.getLastD_eq_getLast?, List.getLast?_append]
  cases h : (r1 :: rt).getLast? with
  | none => exact absurd h (by simp [List.getLast?_eq_none_iff])
  | some a => rfl

/-- The source's keyword-removal regex on a line built from a case
variant of one of its six keywords, a whitespace block, and a remainder
with non-space head: exactly the keyword and the whitespace go. -/
theorem stripLeadKw_gherkin (kwc ws rest : List Char)
    (hkw : kwc.map Char.toLower ∈ gherkinKeywords)
    (hws : ∀ c ∈ ws, isPySpace c = true) (hw : ws ≠ [])
    (hr : isPySpace (rest.headD 'x') = false) :
    stripLeadKw gherkinKeywords (kwc ++ ws ++ rest) = rest := by
  simp only [gherkinKeywords, List.mem_cons, List.not_mem_nil, or_false] at hkw
  rw [gherkinKeywords_expand]
  rcases hkw with h | h | h | h | h | h
  · exact stripLeadKw_cons_hit _ _ _ _ (tryKwWs_hit _ kwc ws rest h hws hw hr)
  · obtain ⟨c1, cs1, rfl, hc1⟩ := kwc_cons_of_map_eq kwc 's' "cenario".data h
    simp only [List.cons_append]
    rw [stripLeadKw_cons_miss "feature".data _ _ (tryKwWs_miss 'f' "eature".data c1 _ (by rw [hc1]; decide))]
    exact stripLeadKw_cons_hit _ _ _ _ (tryKwWs_hit _ _ ws rest h hws hw hr)
  · obtain ⟨c1, cs1, rfl, hc1⟩ := kwc_cons_of_map_eq kwc 'g' "iven".data h
    simp only [List.cons_append]
    rw [stripLeadKw_cons_miss "feature".data _ _ (tryKwWs_miss 'f' "eature".data c1 _ (by rw [hc1]; decide)),
      stripLeadKw_cons_miss "scenario".data _ _ (tryKwWs_miss 's' "cenario".data c1 _ (by rw [hc1]; decide))]
    exact stripLeadKw_cons_hit _ _ _ _ (tryKwWs_hit _ _ ws rest h hws hw hr)
  · obtain ⟨c1, cs1, rfl, hc1⟩ := kwc_cons_of_map_eq kwc 'w' "hen".data h
    simp only [List.cons_append]
    rw [stripLeadKw_cons_miss "feature".data _ _ (tryKwWs_miss 'f' "eature".data c1 _ (by rw [hc1]; decide)),
      stripLeadKw_cons_miss "scenario".data _ _ (tryKwWs_miss 's' "cenario".data c1 _ (by rw [hc1]; decide)),
      stripLeadKw_cons_miss "given".data _ _ (tryKwWs_miss 'g' "iven".data c1 _ (by rw [hc1]; decide))]
    exact stripLeadKw_cons_hit _ _ _ _ (tryKwWs_hit _ _ ws rest h hws hw hr)
  · obtain ⟨c1, cs1, rfl, hc1⟩ := kwc_cons_of_map_eq kwc 't' "hen".data h
    simp only [List.cons_append]
    rw [stripLeadKw_cons_miss "feature".data _ _ (tryKwWs_miss 'f' "eature".data c1 _ (by rw [hc1]; decide)),
      stripLeadKw_cons_miss "scenario".data _ _ (tryKwWs_miss 's' "cenario".data c1 _ (by rw [hc1]; decide)),
      stripLeadKw_cons_miss "given".data _ _ (tryKwWs_miss 'g' "iven".data c1 _ (by rw [hc1]; decide)),
      stripLeadKw_cons_miss "when".data _ _ (tryKwWs_miss 'w' "hen".data c1 _ (by rw [hc1]; decide))]
    exact stripLeadKw_cons_hit _ _ _ _ (tryKwWs_hit _ _ ws rest h hws hw hr)
  · obtain ⟨c1, cs1, rfl, hc1⟩ := kwc_cons_of_map_eq kwc 'a' "nd".data h
    simp only [List.cons_append]
    rw [stripLeadKw_cons_miss "feature".data _ _ (tryKwWs_miss 'f' "eature".data c1 _ (by rw [hc1]; decide)),
      stripLeadKw_cons_miss "scenario".data _ _ (tryKwWs_miss 's' "cenario".data c1 _ (by rw [hc1]; decide)),
      stripLeadKw_cons_miss "given".data _ _ (tryKwWs_miss 'g' "iven".data c1 _ (by rw [hc1]; decide)),
      stripLeadKw_cons_miss "when".data _ _ (tryKwWs_miss 'w' "hen".data c1 _ (by rw [hc1]; decide)),
      stripLeadKw_cons_miss "then".data _ _ (tryKwWs_miss 't' "hen".data c1 _ (by rw [hc1]; decide))]
    exact stripLeadKw_cons_hit _ _ _ _ (tryKwWs_hit _ _ ws rest h hws hw hr)

/-- Claim C2 (amended): for every line consisting of a case variant of
one of the keywords Feature, Scenario, Given, When, Then, And (the
source's set - `But` is NOT stripped, see the counterexample), followed
by whitespace and a remainder with non-space first and last characters,
`normalize_gherkin` removes exactly that one leading keyword token and
the following whitespace, and normalizes only the remainder.  Only one
token is removed per call, so a duplicated keyword in the remainder may
still appear at the start of the output. -/
theorem gherkin_keyword_stripped
    (kwc ws rt : List Char) (r1 : Char)
    (hkw : kwc.map Char.toLower ∈ gherkinKeywords)
    (hws : ∀ c ∈ ws, isPySpace c = true) (hw : ws ≠ [])
    (hr1 : isPySpace r1 = false)
    (hlast : isPySpace ((r1 :: rt).getLastD 'x') = false) :
    normalize_gherkin (kwc ++ ws ++ (r1 :: rt)) = gherkinTail (r1 :: rt) := by
  obtain ⟨hne, hhead⟩ := gherkin_kw_head_nonspace kwc hkw
  have h1 : isPySpace ((kwc ++ ws ++ (r1 :: rt)).headD 'x') = false := by
    cases kwc with
    | nil => exact absurd rfl hne
    | cons c1 cs1 =>
      rw [show ((c1 :: cs1) ++ ws ++ (r1 :: rt)).headD 'x' = c1 by simp]
      simpa using hhead
  have h2 : isPySpace ((kwc ++ ws ++ (r1 :: rt)).getLastD 'x') = false := by
    rw [getLastD_append_right]
    exact hlast
  unfold normalize_gherkin
  rw [pyStrip_id_of_ends _ h1 h2,
    stripLeadKw_gherkin kwc ws (r1 :: rt) hkw hws hw (by rw [List.headD_cons]; exact hr1)]

/-- Witness for C2 (amended): `Given a step` normalizes by dropping the
keyword token and processing the remainder `a step`. -/
theorem gherkin_keyword_stripped_witness :
    normalize_gherkin ("Given".data ++ [' '] ++ ('a' :: " step".data))
      = gherkinTail ('a' :: " step".data) :=
  gherkin_keyword_stripped "Given".data [' '] " step".data 'a'
    (by decide) (by decide) (by decide) (by decide) (by decide)

theorem length_dropWhile_le (p : Char → Bool) (l : List Char) :
    (l.dropWhile p).length ≤ l.length := by
  induction l with
  | nil => simp
  | cons c cs ih =>
    rw [List.dropWhile_cons]
    split
    · exact le_trans ih (by simp)
    · simp

/-- The head surviving `dropWhile isPySpace` is not whitespace. -/
theorem dropWhile_headD_nonspace (l : List Char) :
    isPySpace ((l.dropWhile isPySpace).headD 'x') = false := by
  induction l with
  | nil => decide
  | cons c cs ih =>
    rw [List.dropWhile_cons]
    split
    · exact ih
    · next h => rw [List.headD_cons]; simpa using h

/-- Collapsing keeps a non-space head in place. -/
theorem collapseGo_headD (fuel : Nat) (l : List Char) (hf : l.length ≤ fuel)
    (h : isPySpace (l.headD 'x') = false) :
    isPySpace ((collapseGo fuel l).headD 'x') = false := by
  cases l with
  | nil =>
    have : collapseGo fuel [] = [] := by cases fuel <;> rfl
    rw [this]
    decide
  | cons c cs =>
    cases fuel with
    | zero => simp at hf
    | succ f =>
      rw [List.headD_cons] at h
      simp only [collapseGo]
      rw [if_neg (by simp [h]), List.headD_cons]
      exact h

/-- The output of the whitespace collapse is canonical. -/
theorem canon_collapseGo (fuel : Nat) : ∀ l : List Char, l.length ≤ fuel →
    canonWs (collapseGo fuel l) = true := by
  induction fuel with
  | zero =>
    intro l hl
    cases l with
    | nil => decide
    | cons c cs => simp at hl
  | succ f ih =>
    intro l hl
    cases l with
    | nil =>
      have h0 : collapseGo (f + 1) [] = [] := rfl
      rw [h0]
      decide
    | cons c cs =>
      simp only [collapseGo]
      by_cases hc : isPySpace c = true
      · rw [if_pos hc]
        have hlen : (cs.dropWhile isPySpace).length ≤ f :=
          le_trans (length_dropWhile_le _ _) (by simpa using hl)
        have hhead : isPySpace ((collapseGo f (cs.dropWhile isPySpace)).headD 'x') = false :=
          collapseGo_headD f _ hlen (dropWhile_headD_nonspace cs)
        rw [List.headD_eq_head?_getD] at hhead
        have hsp : isPySpace ' ' = true := by decide
        simp [canonWs, hsp, hhead, ih _ hlen]
      · rw [if_neg hc]
        have hc2 : isPySpace c = false := by simpa using hc
        simp [canonWs, hc2, ih cs (by simpa using hl)]

theorem canon_tail (c : Char) (cs : List Char) (h : canonWs (c :: cs) = true) :
    canonWs cs = true := by
  simp only [canonWs, Bool.and_eq_true] at h
  exact h.2

/-- Collapsing is the identity on canonical strings. -/
theorem collapseGo_id_of_canon (fuel : Nat) : ∀ l : List Char, l.length ≤ fuel →
    canonWs l = true → collapseGo fuel l = l := by
  induction fuel with
  | zero =>
    intro l hl _
    cases l with
    | nil => rfl
    | cons c cs => simp at hl
  | succ f ih =>
    intro l hl hc
    cases l with
    | nil => rfl
    | cons c cs =>
      have hrest : canonWs cs = true := canon_tail c cs hc
      simp only [canonWs, Bool.and_eq_true] at hc
      obtain ⟨hcond, -⟩ := hc
      simp only [collapseGo]
      by_cases hsp : isPySpace c = true
      · rw [if_pos hsp]
        simp only [hsp, Bool.not_true, Bool.false_or, Bool.and_eq_true, beq_iff_eq,
          Bool.not_eq_true'] at hcond
        obtain ⟨hceq, hhead⟩ := hcond
        rw [dropWhile_id_of_head cs hhead, hceq]
        rw [ih cs (by simpa using hl) hrest]
      · rw [if_neg hsp]
        rw [ih cs (by simpa using hl) hrest]

theorem canon_dropWhile (l : List Char) (h : canonWs l = true) :
    canonWs (l.dropWhile isPySpace) = true := by
  induction l with
  | nil => exact h
  | cons c cs ih =>
    rw [List.dropWhile_cons]
    split
    · exact ih (canon_tail c cs h)
    · exact h

/-- Canonicity restricts to a left factor of an append. -/
theorem canon_append_left (l1 l2 : List Char) (h : canonWs (l1 ++ l2) = true) :
    canonWs l1 = true := by
  induction l1 with
  | nil => rfl
  | cons c cs ih =>
    rw [List.cons_append] at h
    have hrest : canonWs cs = true := ih (canon_tail _ _ h)
    simp only [canonWs, Bool.and_eq_true] at h ⊢
    refine ⟨?_, hrest⟩
    obtain ⟨hcond, -⟩ := h
    cases cs with
    | nil =>
      have hx : isPySpace 'x' = false := by decide
      rw [Bool.or_eq_true] at hcond
      rcases hcond with h1 | h1
      · simp [h1]
      · rw [Bool.and_eq_true] at h1
        simp [hx, h1.1]
    | cons d ds =>
      simpa using hcond

/-- `dropTrailing` is a left factor of the original string. -/
theorem dropTrailing_append (l : List Char) :
    dropTrailing l ++ (l.reverse.takeWhile isPySpace).reverse = l := by
  unfold dropTrailing
  rw [← List.reverse_append, List.takeWhile_append_dropWhile, List.reverse_reverse]

theorem canon_pyStrip (l : List Char) (h : canonWs l = true) :
    canonWs (pyStrip l) = true := by
  unfold pyStrip
  have h1 := canon_dropWhile l h
  exact canon_append_left _ _ (by rw [dropTrailing_append]; exact h1)

theorem pyStrip_idem (l : List Char) : pyStrip (pyStrip l) = pyStrip l := by
  have hmh : isPySpace ((l.dropWhile isPySpace).headD 'x') = false :=
    dropWhile_headD_nonspace l
  show pyStrip (dropTrailing (l.dropWhile isPySpace)) = dropTrailing (l.dropWhile isPySpace)
  set m := l.dropWhile isPySpace with hm
  have hrev : (dropTrailing m).reverse = m.reverse.dropWhile isPySpace := by
    unfold dropTrailing
    rw [List.reverse_reverse]
  have hlast : isPySpace ((dropTrailing m).getLastD 'x') = false := by
    rw [← headD_reverse, hrev]
    exact dropWhile_headD_nonspace m.reverse
  have hhead : isPySpace ((dropTrailing m).headD 'x') = false := by
    cases hdt : dropTrailing m with
    | nil => decide
    | cons c cs =>
      rw [List.headD_cons]
      have hap := dropTrailing_append m
      rw [hdt] at hap
      have hmc : m.headD 'x' = c := by
        rw [← hap]
        simp
      rw [hmc] at hmh
      exact hmh
  unfold pyStrip
  rw [dropWhile_id_of_head _ hhead]
  exact dropTrailing_id_of_last _ hlast

theorem tail_collapse_fix (u : List Char) :
    collapseWs (pyStrip (collapseWs u)) = pyStrip (collapseWs u) := by
  have h1 : canonWs (collapseWs u) = true := canon_collapseGo u.length u (le_refl _)
  have h2 : canonWs (pyStrip (collapseWs u)) = true := canon_pyStrip _ h1
  exact collapseGo_id_of_canon _ _ (le_refl _) h2

/-- Claim C4 (amended): normalization is NOT idempotent in general (see
the counterexample: a second pass can strip a further leading keyword or
raw-string marker letter).  What holds is that the whitespace stages
always fix a normalized string, so a second application is the identity
whenever the remaining stages fix the once-normalized output: if the
keyword removal, the quote replacements and the number replacement fix
`normalize_gherkin s`, then `normalize_gherkin` is idempotent at `s`, and
if the prefix-marker removal, outer-quote removal, placeholder and
numeric-group replacements and quote replacements fix
`normalize_pattern t`, then `normalize_pattern` is idempotent at `t`. -/
theorem normalize_idempotent_on_fixed_stages
    (s t : List Char)
    (hg1 : stripLeadKw gherkinKeywords (normalize_gherkin s) = normalize_gherkin s)
    (hg2 : replQuoted dquote (normalize_gherkin s) = normalize_gherkin s)
    (hg3 : replQuoted squote (normalize_gherkin s) = normalize_gherkin s)
    (hg4 : replNum (normalize_gherkin s) = normalize_gherkin s)
    (hp1 : stripRawMark (normalize_pattern t) = normalize_pattern t)
    (hp2 : unquoteOuter (normalize_pattern t) = normalize_pattern t)
    (hp3 : replBraces (normalize_pattern t) = normalize_pattern t)
    (hp4 : replDGroup (normalize_pattern t) = normalize_pattern t)
    (hp5 : replDDGroup (normalize_pattern t) = normalize_pattern t)
    (hp6 : replQuoted dquote (normalize_pattern t) = normalize_pattern t)
    (hp7 : replQuoted squote (normalize_pattern t) = normalize_pattern t) :
    normalize_gherkin (normalize_gherkin s) = normalize_gherkin s
    ∧ normalize_pattern (normalize_pattern t) = normalize_pattern t := by
  have hgs : pyStrip (normalize_gherkin s) = normalize_gherkin s := pyStrip_idem _
  have hgc : collapseWs (normalize_gherkin s) = normalize_gherkin s := tail_collapse_fix _
  have hps : pyStrip (normalize_pattern t) = normalize_pattern t := pyStrip_idem _
  have hpc : collapseWs (normalize_pattern t) = normalize_pattern t := tail_collapse_fix _
  constructor
  · show gherkinTail (stripLeadKw gherkinKeywords (pyStrip (normalize_gherkin s)))
        = normalize_gherkin s
    rw [hgs, hg1]
    show pyStrip (collapseWs (replNum (replQuoted squote (replQuoted dquote
        (normalize_gherkin s))))) = normalize_gherkin s
    rw [hg2, hg3, hg4, hgc, hgs]
  · show patternTail (unquoteOuter (stripRawMark (pyStrip (normalize_pattern t))))
        = normalize_pattern t
    rw [hps, hp1, hp2]
    show pyStrip (collapseWs (replQuoted squote (replQuoted dquote (replDDGroup
        (replDGroup (replBraces (normalize_pattern t))))))) = normalize_pattern t
    rw [hp3, hp4, hp5, hp6, hp7, hpc, hps]

/-- Witness for C4 (amended): `hello world` is fixed by all the
conditioned stages, so both normalizers are idempotent there. -/
theorem normalize_idempotent_on_fixed_stages_witness :
    normalize_gherkin (normalize_gherkin ("hello world".data))
        = normalize_gherkin ("hello world".data)
    ∧ normalize_pattern (normalize_pattern ("hello world".data))
        = normalize_pattern ("hello world".data) :=
  normalize_idempotent_on_fixed_stages "hello world".data "hello world".data
    (by decide) (by decide) (by decide) (by decide) (by decide) (by decide)
    (by decide) (by decide) (by decide) (by decide) (by decide)
